import Mathlib

/-!
Verification of the goreactor dispatch/lifecycle engine.

Shallow embedding of:
  * `src/inputs/sqs/pool.go` — the SQS input dispatcher (`sqsListen`):
    pending-refcount bookkeeping (`addPending`, `Done`), per-message
    fan-out (`deliver`) and the envelope unwrap of the message body;
  * `src/lib/reactorlog.go` — the structured per-execution log
    (`ReactorLog`): `Write`, `Start`, `Done`, `printJSON`, `reset`;
  * the HTTP health endpoint (`health`, `ok`, `ko`).

Go machine integers that matter here are `int` refcounts: they are
modelled as `Int`.  Byte strings are `List Nat` (a Go `byte` is 0..255,
`\n` is 10).  Maps are modelled extensionally as functions
`String → Option Int` / `String → Bool`, mirroring Go map lookup,
assignment and delete.  Calls to the queue client's `DeleteMessage`
(including the asynchronous `go p.delete(m)`) are observed by appending
the receipt handle to a `deleted` event list.
-/

namespace sqs

/-- State of the `sqsListen` dispatcher relevant to pending/ack
bookkeeping: the `pendings` refcount map, the `messError` map
(`map[string]bool`, only ever storing `true`), and the observation log
`deleted` of receipt handles passed to the queue delete. -/
structure sqsListen where
  pendings : String → Option Int
  messError : String → Bool
  deleted : List String

/-- Go `p.addPending(m)` (pool.go:259-274): increments
`pendings[ReceiptHandle]`, initializing the entry at 1 when absent. -/
def addPending (p : sqsListen) (rh : String) : sqsListen :=
  let v : Int :=
    match p.pendings rh with
    | some v => v + 1
    | none => 1
  { p with pendings := fun k => if k = rh then some v else p.pendings k }

/-- Go `p.Done(m, statusOk)` (pool.go:277-307).  If the receipt handle
is not pending, the call is ignored.  Otherwise the refcount is
decremented and stored back; on `!statusOk` the handle is recorded in
`messError`; when the count reaches zero the handle is deleted from
`pendings`, `messError` is consulted (read only), and if no error was
recorded the queue delete is issued (in the source: `go p.delete(m)`,
outside the lock). -/
def Done (p : sqsListen) (rh : String) (statusOk : Bool) : sqsListen :=
  match p.pendings rh with
  | none => p
  | some v0 =>
    let v : Int := v0 - 1
    let pendings1 : String → Option Int := fun k => if k = rh then some v else p.pendings k
    let messError1 : String → Bool :=
      if statusOk then p.messError
      else fun k => if k = rh then true else p.messError k
    if v ≤ 0 then
      let pendings2 : String → Option Int := fun k => if k = rh then none else pendings1 k
      let hadError := messError1 rh
      { pendings := pendings2
        messError := messError1
        deleted := if hadError then p.deleted else p.deleted ++ [rh] }
    else
      { pendings := pendings1, messError := messError1, deleted := p.deleted }

/-- Go `p.deliver(msg)` (pool.go:161-217), bookkeeping part.  The
dispatcher ranges over the registered reactors; `accepts` records, in
iteration order, the outcome of `MatchConditions` for each reactor
(true = accepted).  Each accepting reactor sets `atLeastOneValid` and
calls `addPending`; if no reactor accepted, the message is deleted
immediately.  (The construction of the `Msg`, the envelope unwrap of
the body — modelled separately as `unwrapBody` — and the hand-off
goroutines do not touch this state.) -/
def deliver (p : sqsListen) (rh : String) (accepts : List Bool) : sqsListen :=
  let p1 := accepts.foldl (fun st mt => if mt then addPending st rh else st) p
  if accepts.any (fun b => b) then p1
  else { p1 with deleted := p1.deleted ++ [rh] }

/-- A sequence of `Done` calls for one receipt handle, applied in order. -/
def applyDones (p : sqsListen) (rh : String) (oks : List Bool) : sqsListen :=
  oks.foldl (fun st ok => Done st rh ok) p

end sqs

namespace lib

/-- One structured log record, i.e. the exported fields of `ReactorLog`
as marshalled by `printJSON` (reactorlog.go:118-133).  `Output` is the
byte string snapshotted from the line accumulator `w`. -/
structure LogRecord where
  Host : String
  Label : String
  Pid : Int
  RID : Nat
  TID : Nat
  Line : Nat
  Output : List Nat
  Status : String
  Error : String
  Elapse : Int
  Timestamp : Int
deriving Repr, DecidableEq

/-- The `ReactorLog` struct (reactorlog.go:37-58).  `w` is the
`strings.Builder` line accumulator, `buff` the pre-init `bytes.Buffer`,
both as byte lists.  `logStream` is true when the `LogStream` reference
is non-nil.  `st` and `Timestamp` are on one integer time scale; the
mutex has no observable effect in this sequential model. -/
structure ReactorLog where
  Host : String
  Label : String
  Pid : Int
  RID : Nat
  TID : Nat
  Line : Nat
  Output : List Nat
  Status : String
  Error : String
  Elapse : Int
  Timestamp : Int
  st : Int
  w : List Nat
  logStream : Bool
  initialized : Bool
  buff : List Nat
deriving Repr, DecidableEq

/-- The zero `ReactorLog`, as produced by the pool's `New` function
(reactorlog.go:14-20): a fresh object with every field at its zero
value. -/
def ReactorLog.zero : ReactorLog :=
  { Host := "", Label := "", Pid := 0, RID := 0, TID := 0, Line := 0
    Output := [], Status := "", Error := "", Elapse := 0, Timestamp := 0
    st := 0, w := [], logStream := false, initialized := false, buff := [] }

/-- Go `NewReactorLog(logStream, hostname, rid, tid)`
(reactorlog.go:24-34): takes an object `r` from the pool (either
`ReactorLog.zero` or a previously `reset` object) and assigns `Host`,
`logStream`, `RID`, `TID`, `Status = ""`, `st = time.Now()` and
`Timestamp`.  No other field is touched. -/
def NewReactorLog (r : ReactorLog) (logStream : Bool) (hostname : String)
    (rid tid : Nat) (now : Int) : ReactorLog :=
  { r with Host := hostname, logStream := logStream, RID := rid, TID := tid
           Status := "", st := now, Timestamp := now }

/-- Go `rl.printJSON()` (reactorlog.go:118-133): snapshot the
accumulator into `Output`, clear the accumulator, marshal the record
(marshalling of this struct cannot fail), send it to the log stream if
non-nil, clear `Output`, increment `Line`.  Returns the updated state
and the list of records actually sent. -/
def ReactorLog.printJSON (rl : ReactorLog) : ReactorLog × List LogRecord :=
  let out := rl.w
  let record : LogRecord :=
    { Host := rl.Host, Label := rl.Label, Pid := rl.Pid, RID := rl.RID
      TID := rl.TID, Line := rl.Line, Output := out, Status := rl.Status
      Error := rl.Error, Elapse := rl.Elapse, Timestamp := rl.Timestamp }
  let sent := if rl.logStream then [record] else []
  ({ rl with w := [], Output := [], Line := rl.Line + 1 }, sent)

/-- Go `rl.handleWriteBytes(b)` (reactorlog.go:76-84): scan the bytes;
each newline byte (10, `newLine[0]`) triggers `printJSON`, any other
byte is appended to the accumulator `w`. -/
def ReactorLog.handleWriteBytes (rl : ReactorLog) : List Nat → ReactorLog × List LogRecord
  | [] => (rl, [])
  | l :: rest =>
    if l = 10 then
      let (rl1, r1) := rl.printJSON
      let (rl2, r2) := rl1.handleWriteBytes rest
      (rl2, r1 ++ r2)
    else
      ReactorLog.handleWriteBytes { rl with w := rl.w ++ [l] } rest

/-- Go `rl.Write(b)` (reactorlog.go:61-74).  Before initialization the
bytes are staged in `buff` and the result of `bytes.Buffer.Write` is
returned, which per its contract is `(len(b), nil)`.  After
initialization any staged bytes are flushed through `handleWriteBytes`
first, then `b` is scanned, and `(len(b), nil)` is returned.  The
`Option String` component is the Go `error` (none = nil). -/
def ReactorLog.Write (rl : ReactorLog) (b : List Nat) :
    ReactorLog × List LogRecord × (Nat × Option String) :=
  if !rl.initialized then
    ({ rl with buff := rl.buff ++ b }, [], (b.length, none))
  else
    let (rl1, r1) :=
      if rl.buff.length > 0 then
        let (x, r) := rl.handleWriteBytes rl.buff
        ({ x with buff := [] }, r)
      else (rl, [])
    let (rl2, r2) := rl1.handleWriteBytes b
    (rl2, r1 ++ r2, (b.length, none))

/-- Go `rl.Start(pid, s)` (reactorlog.go:88-98): set `Pid`, mark
initialized, set `Status = "CMD"`, write the command string into the
accumulator, emit one record, then set `Status = "RUN"`. -/
def ReactorLog.Start (rl : ReactorLog) (pid : Int) (s : List Nat) :
    ReactorLog × List LogRecord :=
  let rl0 := { rl with Pid := pid, initialized := true, Status := "CMD", w := rl.w ++ s }
  let (rl1, r1) := rl0.printJSON
  ({ rl1 with Status := "RUN" }, r1)

/-- Go `rl.reset()` (reactorlog.go:135-151): clear the exported record
fields, the line counter, the log stream reference and both internal
buffers, then put the object back in the pool.  Note that the source
clears neither `initialized` nor `st`. -/
def ReactorLog.reset (rl : ReactorLog) : ReactorLog :=
  { rl with Host := "", Label := "", Pid := 0, RID := 0, TID := 0, Line := 0
            Output := [], Status := "", Error := "", Elapse := 0, Timestamp := 0
            logStream := false, w := [], buff := [] }

/-- Go `rl.Done(err)` (reactorlog.go:101-116): if never initialized,
flush the staged bytes through `handleWriteBytes`; set
`Status = "END"`, record the error message if any, compute
`Elapse = now - st`, emit the final record, then `reset` (which returns
the object to the pool). -/
def ReactorLog.Done (rl : ReactorLog) (err : Option String) (now : Int) :
    ReactorLog × List LogRecord :=
  let (rla, r0) :=
    if !rl.initialized then rl.handleWriteBytes rl.buff else (rl, [])
  let rlb := { rla with Status := "END" }
  let rlc :=
    match err with
    | some e => { rlb with Error := e }
    | none => rlb
  let rld := { rlc with Elapse := now - rlc.st }
  let (rle, r1) := rld.printJSON
  (rle.reset, r0 ++ r1)

/-- A sequence of `Write` calls applied in order, collecting the records
emitted along the way (the `(n, err)` return values are dropped). -/
def applyWrites (rl : ReactorLog) : List (List Nat) → ReactorLog × List LogRecord
  | [] => (rl, [])
  | b :: bs =>
    let (rl1, recs1, _) := rl.Write b
    let (rl2, recs2) := applyWrites rl1 bs
    (rl2, recs1 ++ recs2)

/-- One complete execution against a pristine pooled object: creation
via `NewReactorLog`, writes, an optional `Start pid cmd` with further
writes after it, and a final `Done`.  Returns every record emitted. -/
def execRecords (hostname : String) (rid tid : Nat) (t0 : Int)
    (preWrites : List (List Nat)) (startOpt : Option (Int × List Nat))
    (postWrites : List (List Nat)) (err : Option String) (t1 : Int) : List LogRecord :=
  let rl := NewReactorLog ReactorLog.zero true hostname rid tid t0
  let (rl1, recs1) := applyWrites rl preWrites
  match startOpt with
  | none =>
    let (_, recs2) := rl1.Done err t1
    recs1 ++ recs2
  | some (pid, cmd) =>
    let (rl2, recs2) := rl1.Start pid cmd
    let (rl3, recs3) := applyWrites rl2 postWrites
    let (_, recs4) := rl3.Done err t1
    recs1 ++ recs2 ++ recs3 ++ recs4

end lib

namespace http

/-- An HTTP response as produced by the health handler: status code and
body. -/
structure HttpResponse where
  statusCode : Nat
  body : String
deriving Repr, DecidableEq

/-- Go `ok(w)` (part_000:21-25): HTTP 200 with body
`\x7b"message": "ok"\x7d`. -/
def ok : HttpResponse :=
  { statusCode := 200, body := "\x7b\"message\": \"ok\"\x7d" }

/-- Go `ko(w)` (part_000:27-31): HTTP 503 (service unavailable) with
body `\x7b"error": "reactor not healthy"\x7d`. -/
def ko : HttpResponse :=
  { statusCode := 503, body := "\x7b\"error\": \"reactor not healthy\"\x7d" }

/-- The liveness fields of one reactor read by the health handler:
`GetLastSuccessfullExecution` and `GetLastErrorExecution`.  Times are
integers on one scale (e.g. seconds); 0 models the zero `time.Time`
(`IsZero`). -/
structure ReactorHealth where
  lastSuccess : Int
  lastError : Int
deriving Repr, DecidableEq

/-- The `for _, r := range s.reactors` loop of `health`
(part_000:93-109), with the `delayed` flag threaded through: skip
reactors with no recorded execution; answer `ok` at the first reactor
whose `time.Since(last)` is below the threshold; otherwise mark
`delayed` and continue; after the loop answer `ko` iff `delayed`. -/
def healthLoop (now thr : Int) : List ReactorHealth → Bool → HttpResponse
  | [], delayed => if delayed then ko else ok
  | r :: rest, delayed =>
    if r.lastSuccess = 0 ∧ r.lastError = 0 then healthLoop now thr rest delayed
    else if now - r.lastSuccess < thr then ok
    else healthLoop now thr rest true

/-- Go `(s *HTTPServer) health` (part_000:75-112) after the `seconds`
parameter has been parsed into a threshold: an empty reactor list
answers `ko`; otherwise the loop decides.  `time.Since(last)` is
modelled as `now - last` and `time.Duration(parsedSeconds)*time.Second`
as `thr` on the same scale. -/
def health (now thr : Int) (reactors : List ReactorHealth) : HttpResponse :=
  if reactors.length = 0 then ko
  else healthLoop now thr reactors false

end http

namespace sqs

/-- A JSON value, as produced by the external `gabs.ParseJSON`
(backed by Go `encoding/json`).  Numbers are restricted to integers in
this model (non-integer numeric literals are treated as parse
failures). -/
inductive Json where
  | null : Json
  | bool (b : Bool) : Json
  | num (n : Int) : Json
  | str (s : List Char) : Json
  | arr (elems : List Json) : Json
  | obj (fields : List (List Char × Json)) : Json
deriving Repr

/-- The opening-brace character, written via its code point. -/
def lbrace : Char := Char.ofNat 123

/-- The closing-brace character, written via its code point. -/
def rbrace : Char := Char.ofNat 125

/-- JSON whitespace. -/
def isJsonWs (c : Char) : Bool :=
  c = ' ' || c = Char.ofNat 9 || c = Char.ofNat 10 || c = Char.ofNat 13

/-- Drop leading JSON whitespace. -/
def skipWs (s : List Char) : List Char := s.dropWhile isJsonWs

/-- Decode one escape character inside a JSON string literal
(`\uXXXX` escapes are treated as parse failures in this model). -/
def escChar (e : Char) : Option Char :=
  if e = '"' then some '"'
  else if e = '\\' then some '\\'
  else if e = '/' then some '/'
  else if e = 'b' then some (Char.ofNat 8)
  else if e = 'f' then some (Char.ofNat 12)
  else if e = 'n' then some (Char.ofNat 10)
  else if e = 'r' then some (Char.ofNat 13)
  else if e = 't' then some (Char.ofNat 9)
  else none

/-- Parse the body of a JSON string literal after the opening quote;
returns the decoded characters and the input past the closing quote. -/
def parseStringBody : List Char → Option (List Char × List Char)
  | [] => none
  | '"' :: rest => some ([], rest)
  | '\\' :: e :: rest =>
    match escChar e with
    | some c => (parseStringBody rest).map (fun p => (c :: p.1, p.2))
    | none => none
  | '\\' :: [] => none
  | c :: rest => (parseStringBody rest).map (fun p => (c :: p.1, p.2))

/-- Leading decimal digits of the input, and the rest. -/
def takeDigits (s : List Char) : List Char × List Char :=
  (s.takeWhile (fun c => c.isDigit), s.dropWhile (fun c => c.isDigit))

/-- Decimal digits to an integer value. -/
def digitsToInt (ds : List Char) : Int :=
  Int.ofNat (ds.foldl (fun a c => 10 * a + (c.toNat - 48)) 0)

mutual

/-- Recursive-descent JSON value parser with explicit fuel, modelling
the external `gabs.ParseJSON` / `encoding/json` syntax on the fragment
described at `Json`. -/
def parseValue : Nat → List Char → Option (Json × List Char)
  | 0, _ => none
  | Nat.succ fuel, s =>
    match skipWs s with
    | [] => none
    | 'n' :: 'u' :: 'l' :: 'l' :: rest => some (.null, rest)
    | 't' :: 'r' :: 'u' :: 'e' :: rest => some (.bool true, rest)
    | 'f' :: 'a' :: 'l' :: 's' :: 'e' :: rest => some (.bool false, rest)
    | '"' :: rest => (parseStringBody rest).map (fun p => (.str p.1, p.2))
    | '[' :: rest =>
      let s1 := skipWs rest
      (match s1 with
       | ']' :: r => some (.arr [], r)
       | _ =>
         (parseElems fuel s1).map (fun p => (.arr p.1, p.2)))
    | '-' :: rest =>
      (match takeDigits rest with
       | ([], _) => none
       | (ds, r) => some (.num (-(digitsToInt ds)), r))
    | c :: rest =>
      if c = lbrace then
        let s1 := skipWs rest
        (match s1 with
         | c1 :: r =>
           if c1 = rbrace then some (.obj [], r)
           else (parseMembers fuel s1).map (fun p => (.obj p.1, p.2))
         | [] => none)
      else if c.isDigit then
        (match takeDigits (c :: rest) with
         | ([], _) => none
         | (ds, r) => some (.num (digitsToInt ds), r))
      else none

/-- Parse one or more `"key": value` members and the closing brace. -/
def parseMembers : Nat → List Char → Option (List (List Char × Json) × List Char)
  | 0, _ => none
  | Nat.succ fuel, s =>
    match s with
    | '"' :: rest =>
      (parseStringBody rest).bind (fun pk =>
        match skipWs pk.2 with
        | ':' :: s2 =>
          (parseValue fuel s2).bind (fun pv =>
            match skipWs pv.2 with
            | ',' :: s3 =>
              (parseMembers fuel (skipWs s3)).map (fun pm =>
                ((pk.1, pv.1) :: pm.1, pm.2))
            | c :: s3 =>
              if c = rbrace then some ([(pk.1, pv.1)], s3) else none
            | [] => none)
        | _ => none)
    | _ => none

/-- Parse one or more array elements and the closing bracket. -/
def parseElems : Nat → List Char → Option (List Json × List Char)
  | 0, _ => none
  | Nat.succ fuel, s =>
    (parseValue fuel s).bind (fun pv =>
      match skipWs pv.2 with
      | ',' :: s2 => (parseElems fuel s2).map (fun pe => (pv.1 :: pe.1, pe.2))
      | ']' :: s2 => some ([pv.1], s2)
      | _ => none)

end

/-- Model of the external `gabs.ParseJSON(b)` call in `deliver`
(pool.go:182): parse one JSON value and require that only whitespace
remains (`encoding/json` rejects trailing data). -/
def ParseJSON (s : List Char) : Option Json :=
  match parseValue (s.length + 2) s with
  | some (j, rest) => if skipWs rest = [] then some j else none
  | none => none

/-- JSON string escaping as in `encoding/json` output (control
characters other than newline, carriage return and tab, and the
HTML-escaped characters, are not modelled). -/
def escapeJsonChar (c : Char) : List Char :=
  if c = '"' then ['\\', '"']
  else if c = '\\' then ['\\', '\\']
  else if c = Char.ofNat 10 then ['\\', 'n']
  else if c = Char.ofNat 13 then ['\\', 'r']
  else if c = Char.ofNat 9 then ['\\', 't']
  else [c]

mutual

/-- Model of gabs `Container.String()`: marshal a JSON value back to
text, as `json.Marshal` does (no added whitespace). -/
def renderJson : Json → List Char
  | .null => "null".toList
  | .bool b => (cond b "true" "false").toList
  | .num n => (toString n).toList
  | .str s => '"' :: (s.map escapeJsonChar).flatten ++ ['"']
  | .arr xs => '[' :: renderElems xs ++ [']']
  | .obj fs => lbrace :: renderFields fs ++ [rbrace]

/-- Comma-separated rendering of array elements. -/
def renderElems : List Json → List Char
  | [] => []
  | [x] => renderJson x
  | x :: xs => renderJson x ++ ',' :: renderElems xs

/-- Comma-separated rendering of object members. -/
def renderFields : List (List Char × Json) → List Char
  | [] => []
  | [(k, v)] => '"' :: (k.map escapeJsonChar).flatten ++ '"' :: ':' :: renderJson v
  | (k, v) :: fs =>
    ('"' :: (k.map escapeJsonChar).flatten ++ '"' :: ':' :: renderJson v)
      ++ ',' :: renderFields fs

end

/-- Top-level key lookup, as in gabs `Exists(key)` / `S(key)` over the
`map[string]interface\x7b\x7d` that `encoding/json` produces for an
object (for duplicate keys the last one wins); lookup on a non-object
fails. -/
def getKey : Json → List Char → Option Json
  | .obj fs, k => fs.foldl (fun acc kv => if kv.1 = k then some kv.2 else acc) none
  | _, _ => none

/-- The characters of the literal key `Message`. -/
def msgKey : List Char := ['M', 'e', 's', 's', 'a', 'g', 'e']

/-- Go `strings.Replace(s, "\\\"", "\"", -1)` (pool.go:184): replace
every (left-to-right, non-overlapping) occurrence of backslash-quote by
a bare quote. -/
def replaceEscQuotes : List Char → List Char
  | '\\' :: '"' :: rest => '"' :: replaceEscQuotes rest
  | c :: rest => c :: replaceEscQuotes rest
  | [] => []

/-- Go `strings.TrimPrefix(s, "\"")` (pool.go:185): drop one leading
quote if present. -/
def trimQuoteLeft : List Char → List Char
  | '"' :: rest => rest
  | s => s

/-- Go `strings.TrimSuffix(s, "\"")` (pool.go:186): drop one trailing
quote if present. -/
def trimQuoteRight (s : List Char) : List Char :=
  if s.getLast? = some '"' then s.dropLast else s

/-- The envelope unwrap inside `deliver` (pool.go:182-188): if the body
parses as JSON and the top-level `Message` key exists, the body becomes
the rendered `Message` value with escaped quotes unescaped and one
surrounding pair of quotes stripped; otherwise the body is unchanged. -/
def unwrapBody (b : List Char) : List Char :=
  match ParseJSON b with
  | none => b
  | some j =>
    match getKey j msgKey with
    | none => b
    | some v => trimQuoteRight (trimQuoteLeft (replaceEscQuotes (renderJson v)))

/-- The condition as worded by the specification: the body parses as
JSON with a top-level `Message` field whose value is a string. -/
def hasTopLevelStringMessage (b : List Char) : Bool :=
  match ParseJSON b with
  | none => false
  | some j =>
    match getKey j msgKey with
    | some (.str _) => true
    | _ => false

/-- The condition actually tested by the source: the body parses as
JSON and the top-level `Message` key exists, with a value of any type. -/
def hasTopLevelMessage (b : List Char) : Bool :=
  match ParseJSON b with
  | none => false
  | some j => (getKey j msgKey).isSome

end sqs

/-!
Theorems.  Claims C1, C2, C9 and C10 concern the dispatcher state
machine; C3 the health endpoint; C4, C5, C6, C7 the reactor log; C8
the envelope unwrap.
-/

namespace sqs

/-- Folding `addPending` over reactors none of which accepted leaves the
state untouched. -/
lemma foldl_addPending_none (accepts : List Bool) (p : sqsListen) (rh : String)
    (h : ∀ b ∈ accepts, b = false) :
    accepts.foldl (fun st mt => if mt then addPending st rh else st) p = p := by
  induction accepts generalizing p with
  | nil => rfl
  | cons a as ih =>
    have ha : a = false := h a (List.mem_cons_self a as)
    rw [List.foldl_cons, ha]
    simpa using ih p (fun b hb => h b (List.mem_cons_of_mem a hb))

/-- An empty dispatcher state (no pendings, no errors, no deletes
observed), used to instantiate the theorems below. -/
def emptyListen : sqsListen :=
  { pendings := fun _ => none, messError := fun _ => false, deleted := [] }

/-- A `deliver` in which no reactor accepts appends one delete event
and leaves the rest of the state unchanged (shared helper). -/
lemma deliver_no_match (p : sqsListen) (rh : String) (accepts : List Bool)
    (h : ∀ b ∈ accepts, b = false) :
    deliver p rh accepts =
      { pendings := p.pendings, messError := p.messError, deleted := p.deleted ++ [rh] } := by
  unfold deliver
  have hany : accepts.any (fun b => b) = false := by
    rw [List.any_eq_false]
    intro x hx
    simp [h x hx]
  rw [foldl_addPending_none accepts p rh h, hany]
  simp

/-- Claim C9: a received message accepted by zero of the registered
reactors is deleted immediately by `deliver`, and `pendings` and
`messError` are left unchanged. -/
theorem C9_no_match_immediate_delete (p : sqsListen) (rh : String) (accepts : List Bool)
    (h : ∀ b ∈ accepts, b = false) :
    deliver p rh accepts =
      { pendings := p.pendings, messError := p.messError, deleted := p.deleted ++ [rh] } :=
  deliver_no_match p rh accepts h

/-- Witness for C9 at a concrete input. -/
theorem C9_witness :
    deliver emptyListen "h1" [false, false] =
      { pendings := emptyListen.pendings, messError := emptyListen.messError
        deleted := emptyListen.deleted ++ ["h1"] } :=
  C9_no_match_immediate_delete emptyListen "h1" [false, false] (by decide)

/-- Claim C10: a `Done` call for a receipt handle that is not pending is
ignored entirely: the state (pendings, errors, issued deletes) is
returned unchanged, for both values of `statusOk`. -/
theorem C10_done_ignores_unknown (p : sqsListen) (rh : String) (statusOk : Bool)
    (h : p.pendings rh = none) :
    Done p rh statusOk = p := by
  unfold Done
  rw [h]

/-- Witness for C10 at a concrete input (both `statusOk` values). -/
theorem C10_witness :
    Done emptyListen "h1" true = emptyListen ∧ Done emptyListen "h1" false = emptyListen :=
  ⟨C10_done_ignores_unknown emptyListen "h1" true rfl,
   C10_done_ignores_unknown emptyListen "h1" false rfl⟩

/-- A dispatcher state with one pending reference for handle `h` and no
recorded error, used as the concrete input of the C2 theorems. -/
def oneListen : sqsListen :=
  { pendings := fun k => if k = "h" then some 1 else none
    messError := fun _ => false, deleted := [] }

/-- Counterexample to claim C2 as stated: bringing the refcount of `h`
to zero with `ok = false` removes `h` from `pendings` and records it in
`messError`, but after the call `h` is still in `messError` — the
source only reads `p.messError[id]`, it never deletes the entry, so the
errored handle is not removed from `Errored`. -/
theorem C2_counterexample :
    (Done oneListen "h" false).pendings "h" = none ∧
    (Done oneListen "h" false).messError "h" = true := by
  constructor <;> rfl

/-- Behaviour of `Done` on the last pending reference (shared helper):
the handle leaves `pendings`, its `messError` entry after the call is
the disjunction of the prior mark and this call's failure, and the
delete is issued iff that disjunction is false. -/
lemma Done_last_reference (p : sqsListen) (rh : String) (statusOk : Bool) (v : Int)
    (hv : p.pendings rh = some v) (hlast : v ≤ 1) :
    (Done p rh statusOk).pendings rh = none ∧
    (Done p rh statusOk).messError rh = (p.messError rh || !statusOk) ∧
    (Done p rh statusOk).deleted =
      (if (p.messError rh || !statusOk) = true then p.deleted else p.deleted ++ [rh]) := by
  unfold Done
  rw [hv]
  have hv0 : v - 1 ≤ 0 := by omega
  simp only [hv0, if_pos]
  cases statusOk <;> simp

/-- Claim C2, amended: when a `Done(m, ok)` call brings the pending
refcount of `rh` to zero, the dispatcher removes `rh` from `pendings`,
reads `rh`'s entry in `messError` (leaving the entry in place — it is
never removed), and issues the asynchronous queue delete if and only if
`rh` was not marked errored (by this call or a previous one). -/
theorem C2_done_last_reference (p : sqsListen) (rh : String) (statusOk : Bool) (v : Int)
    (hv : p.pendings rh = some v) (hlast : v ≤ 1) :
    (Done p rh statusOk).pendings rh = none ∧
    (Done p rh statusOk).messError rh = (p.messError rh || !statusOk) ∧
    (Done p rh statusOk).deleted =
      (if (p.messError rh || !statusOk) = true then p.deleted else p.deleted ++ [rh]) :=
  Done_last_reference p rh statusOk v hv hlast

/-- Witness for C2's amended theorem at a concrete input. -/
theorem C2_witness :
    (Done oneListen "h" false).pendings "h" = none ∧
    (Done oneListen "h" false).messError "h" = (oneListen.messError "h" || !false) ∧
    (Done oneListen "h" false).deleted =
      (if (oneListen.messError "h" || !false) = true
       then oneListen.deleted else oneListen.deleted ++ ["h"]) :=
  C2_done_last_reference oneListen "h" false 1 rfl (by decide)

end sqs

namespace sqs

/-- Folding `addPending` over the match outcomes, starting from a state
where `rh` already has refcount `v`: the count grows by the number of
accepting reactors; errors and deletes are untouched. -/
lemma foldl_addPending_some (accepts : List Bool) (p : sqsListen) (rh : String) (v : Int)
    (hv : p.pendings rh = some v) :
    ((accepts.foldl (fun st mt => if mt then addPending st rh else st) p).pendings rh
        = some (v + (accepts.countP (fun b => b) : Int))) ∧
    (accepts.foldl (fun st mt => if mt then addPending st rh else st) p).messError
        = p.messError ∧
    (accepts.foldl (fun st mt => if mt then addPending st rh else st) p).deleted
        = p.deleted := by
  induction accepts generalizing p v with
  | nil => simpa using hv
  | cons a as ih =>
    cases a with
    | false =>
      have hfold :
          List.foldl (fun st mt => if mt then addPending st rh else st) p (false :: as)
            = List.foldl (fun st mt => if mt then addPending st rh else st) p as := rfl
      rw [hfold]
      have h := ih p v hv
      simpa [List.countP_cons] using h
    | true =>
      have hfold :
          List.foldl (fun st mt => if mt then addPending st rh else st) p (true :: as)
            = List.foldl (fun st mt => if mt then addPending st rh else st)
                (addPending p rh) as := rfl
      rw [hfold]
      have hv' : (addPending p rh).pendings rh = some (v + 1) := by
        unfold addPending
        rw [hv]
        simp
      obtain ⟨h1, h2, h3⟩ := ih (addPending p rh) (v + 1) hv'
      have hme : (addPending p rh).messError = p.messError := rfl
      have hdel : (addPending p rh).deleted = p.deleted := rfl
      refine ⟨?_, ?_, ?_⟩
      · rw [h1]
        congr 1
        simp [List.countP_cons]
        ring
      · rw [h2, hme]
      · rw [h3, hdel]

/-- Folding `addPending` starting from a state where `rh` is not
pending: afterwards the refcount equals the number of accepting
reactors (when at least one accepted); errors and deletes untouched. -/
lemma foldl_addPending_fresh (accepts : List Bool) (p : sqsListen) (rh : String)
    (h : p.pendings rh = none) (hpos : 0 < accepts.countP (fun b => b)) :
    ((accepts.foldl (fun st mt => if mt then addPending st rh else st) p).pendings rh
        = some (accepts.countP (fun b => b) : Int)) ∧
    (accepts.foldl (fun st mt => if mt then addPending st rh else st) p).messError
        = p.messError ∧
    (accepts.foldl (fun st mt => if mt then addPending st rh else st) p).deleted
        = p.deleted := by
  induction accepts generalizing p with
  | nil => simp at hpos
  | cons a as ih =>
    cases a with
    | false =>
      have hfold :
          List.foldl (fun st mt => if mt then addPending st rh else st) p (false :: as)
            = List.foldl (fun st mt => if mt then addPending st rh else st) p as := rfl
      rw [hfold]
      have hpos' : 0 < as.countP (fun b => b) := by
        simpa [List.countP_cons] using hpos
      have h' := ih p h hpos'
      simpa [List.countP_cons] using h'
    | true =>
      have hfold :
          List.foldl (fun st mt => if mt then addPending st rh else st) p (true :: as)
            = List.foldl (fun st mt => if mt then addPending st rh else st)
                (addPending p rh) as := rfl
      rw [hfold]
      have hv' : (addPending p rh).pendings rh = some 1 := by
        unfold addPending
        rw [h]
        simp
      obtain ⟨h1, h2, h3⟩ := foldl_addPending_some as (addPending p rh) rh 1 hv'
      have hme : (addPending p rh).messError = p.messError := rfl
      have hdel : (addPending p rh).deleted = p.deleted := rfl
      refine ⟨?_, ?_, ?_⟩
      · rw [h1]
        congr 1
        simp [List.countP_cons]
        ring
      · rw [h2, hme]
      · rw [h3, hdel]

/-- Draining the pending references of `rh` with a sequence of `Done`
calls, at most as many as the current refcount `m ≥ 1`: if there are
fewer calls than references, the handle stays pending with the
difference as its count, the error mark accumulates, and no delete is
issued; if the calls exactly exhaust the count, the handle leaves
`pendings` and the delete is issued iff no call failed and no error was
already recorded. -/
lemma applyDones_drain (oks : List Bool) (p : sqsListen) (rh : String) (m : Int)
    (hm : p.pendings rh = some m) (h1 : 1 ≤ m) (hlen : (oks.length : Int) ≤ m) :
    if (oks.length : Int) = m then
      (applyDones p rh oks).pendings rh = none ∧
      (applyDones p rh oks).deleted =
        (if (p.messError rh || oks.any (fun b => !b)) = true
         then p.deleted else p.deleted ++ [rh])
    else
      (applyDones p rh oks).pendings rh = some (m - oks.length) ∧
      (applyDones p rh oks).messError rh = (p.messError rh || oks.any (fun b => !b)) ∧
      (applyDones p rh oks).deleted = p.deleted := by
  induction oks generalizing p m with
  | nil =>
    have hne : ¬ ((([] : List Bool).length : Int) = m) := by
      simp
      omega
    rw [if_neg hne]
    have happ : applyDones p rh [] = p := rfl
    rw [happ]
    refine ⟨by simpa using hm, by simp, rfl⟩
  | cons ok rest ih =>
    have hfold : applyDones p rh (ok :: rest) = applyDones (Done p rh ok) rh rest := rfl
    by_cases hm1 : m = 1
    · subst hm1
      have hrest : rest = [] := by
        have : (rest.length : Int) ≤ 0 := by
          simpa using hlen
        simpa using this
      subst hrest
      rw [if_pos (by simp)]
      have hdone :
          (Done p rh ok).pendings rh = none ∧
          (Done p rh ok).messError rh = (p.messError rh || !ok) ∧
          (Done p rh ok).deleted =
            (if (p.messError rh || !ok) = true then p.deleted else p.deleted ++ [rh]) :=
        Done_last_reference p rh ok 1 hm (by omega)
      have happ : applyDones p rh [ok] = Done p rh ok := rfl
      rw [happ]
      refine ⟨hdone.1, ?_⟩
      rw [hdone.2.2]
      simp
    · have hm2 : 2 ≤ m := by omega
      -- the decremented count stays positive: `Done` takes the else branch
      have hdone :
          (Done p rh ok).pendings rh = some (m - 1) ∧
          (Done p rh ok).messError rh = (p.messError rh || !ok) ∧
          (Done p rh ok).deleted = p.deleted := by
        unfold Done
        rw [hm]
        have : ¬ (m - 1 ≤ 0) := by omega
        simp only [this, if_neg, if_false]
        cases ok <;> simp
      rw [hfold]
      have hlen' : (rest.length : Int) ≤ m - 1 := by
        simp at hlen
        omega
      have h := ih (Done p rh ok) (m - 1) hdone.1 (by omega) hlen'
      by_cases hexact : ((ok :: rest).length : Int) = m
      · have hexact' : (rest.length : Int) = m - 1 := by
          simp at hexact
          omega
        rw [if_pos hexact]
        rw [if_pos hexact'] at h
        refine ⟨h.1, ?_⟩
        rw [h.2, hdone.2.1, hdone.2.2]
        simp [Bool.or_assoc]
      · have hexact' : ¬ ((rest.length : Int) = m - 1) := by
          simp at hexact ⊢
          omega
        rw [if_neg hexact]
        rw [if_neg hexact'] at h
        refine ⟨?_, ?_, ?_⟩
        · rw [h.1]
          congr 1
          simp
          ring
        · rw [h.2.1, hdone.2.1]
          simp [Bool.or_assoc]
        · rw [h.2.2, hdone.2.2]

end sqs

namespace sqs

/-- Claim C1: starting from a state in which `rh` is neither pending
nor marked errored, a `deliver` of a message with receipt handle `rh`
(with the given per-reactor match outcomes) followed by at most one
`Done` call per accepting reactor passes `rh` to the queue delete if
and only if every `Done` call reported `ok = true` and the number of
`Done` calls equals the number of reactors that accepted the message at
deliver time. -/
theorem C1_delete_iff_all_done_ok (p : sqsListen) (rh : String) (accepts oks : List Bool)
    (hP : p.pendings rh = none) (hE : p.messError rh = false)
    (hlen : oks.length ≤ accepts.countP (fun b => b)) :
    (applyDones (deliver p rh accepts) rh oks).deleted =
      (if oks.length = accepts.countP (fun b => b) ∧ (∀ b ∈ oks, b = true)
       then p.deleted ++ [rh] else p.deleted) := by
  by_cases hn : accepts.countP (fun b => b) = 0
  · -- no reactor accepted: `deliver` deletes immediately and `oks` is empty
    have hoks : oks = [] := by
      rw [hn] at hlen
      simpa using hlen
    subst hoks
    have hall : ∀ b ∈ accepts, b = false := by
      intro b hb
      have := List.countP_eq_zero.mp hn b hb
      simpa using this
    have hdeliv := deliver_no_match p rh accepts hall
    have happ : applyDones (deliver p rh accepts) rh [] = deliver p rh accepts := rfl
    rw [happ, hdeliv, hn]
    simp
  · -- at least one reactor accepted
    have hpos : 0 < accepts.countP (fun b => b) := Nat.pos_of_ne_zero hn
    obtain ⟨hp1, hme1, hdel1⟩ := foldl_addPending_fresh accepts p rh hP hpos
    have hany : accepts.any (fun b => b) = true := by
      rw [List.any_eq_true]
      obtain ⟨a, ha, hpa⟩ := List.countP_pos_iff.mp hpos
      exact ⟨a, ha, hpa⟩
    have hdeliv : deliver p rh accepts
        = accepts.foldl (fun st mt => if mt then addPending st rh else st) p := by
      unfold deliver
      rw [if_pos hany]
    rw [hdeliv]
    have hdrain := applyDones_drain oks
      (accepts.foldl (fun st mt => if mt then addPending st rh else st) p) rh
      (accepts.countP (fun b => b) : Int) hp1 (by exact_mod_cast hpos) (by exact_mod_cast hlen)
    have hmerh :
        (accepts.foldl (fun st mt => if mt then addPending st rh else st) p).messError rh
          = false := by
      rw [hme1, hE]
    by_cases heq : oks.length = accepts.countP (fun b => b)
    · rw [if_pos (by exact_mod_cast heq)] at hdrain
      rw [hdrain.2, hmerh, hdel1]
      by_cases hok : ∀ b ∈ oks, b = true
      · have hanyf : oks.any (fun b => !b) = false := by
          rw [List.any_eq_false]
          intro x hx
          simp [hok x hx]
        rw [hanyf]
        rw [if_neg (show ¬ (((false : Bool) || false) = true) by simp)]
        rw [if_pos ⟨heq, hok⟩]
      · have hanyt : oks.any (fun b => !b) = true := by
          rw [List.any_eq_true]
          push_neg at hok
          obtain ⟨b, hb, hbt⟩ := hok
          refine ⟨b, hb, ?_⟩
          cases b
          · simp
          · simp at hbt
        rw [hanyt]
        rw [if_pos (show (((false : Bool) || true) = true) by simp)]
        rw [if_neg (fun hc => hok hc.2)]
    · rw [if_neg (by
        intro hc
        exact heq (by exact_mod_cast hc))] at hdrain
      rw [hdrain.2.2, hdel1]
      rw [if_neg (fun hc => heq hc.1)]

/-- Witness for C1 at a concrete input: one accepting reactor, one
successful `Done`, so the delete is issued. -/
theorem C1_witness :
    (applyDones (deliver emptyListen "h1" [true, false]) "h1" [true]).deleted =
      (if [true].length = [true, false].countP (fun b => b) ∧ (∀ b ∈ [true], b = true)
       then emptyListen.deleted ++ ["h1"] else emptyListen.deleted) :=
  C1_delete_iff_all_done_ok emptyListen "h1" [true, false] [true] rfl rfl (by decide)

end sqs

namespace http

/-- Characterization of the health loop: it answers `ok` iff some
reactor has a recorded execution within the freshness window; otherwise
it answers `ko` iff the `delayed` flag is set or some reactor has a
recorded execution (necessarily stale); otherwise `ok`. -/
lemma healthLoop_spec (now thr : Int) (rs : List ReactorHealth) (delayed : Bool) :
    healthLoop now thr rs delayed =
      (if ∃ r ∈ rs, ¬(r.lastSuccess = 0 ∧ r.lastError = 0) ∧ now - r.lastSuccess < thr
       then ok
       else if delayed = true ∨ ∃ r ∈ rs, ¬(r.lastSuccess = 0 ∧ r.lastError = 0)
       then ko
       else ok) := by
  induction rs generalizing delayed with
  | nil =>
    by_cases hd : delayed = true
    · simp [healthLoop, hd]
    · simp [healthLoop, hd]
  | cons r rest ih =>
    by_cases hrec : r.lastSuccess = 0 ∧ r.lastError = 0
    · have hstep : healthLoop now thr (r :: rest) delayed = healthLoop now thr rest delayed := by
        rw [healthLoop, if_pos hrec]
      rw [hstep, ih]
      by_cases hex : ∃ x ∈ rest, ¬(x.lastSuccess = 0 ∧ x.lastError = 0) ∧ now - x.lastSuccess < thr
      · have hex' :
            ∃ x ∈ r :: rest, ¬(x.lastSuccess = 0 ∧ x.lastError = 0) ∧ now - x.lastSuccess < thr := by
          obtain ⟨x, hx1, hx2⟩ := hex
          exact ⟨x, List.mem_cons_of_mem r hx1, hx2⟩
        rw [if_pos hex, if_pos hex']
      · have hex' :
            ¬ ∃ x ∈ r :: rest, ¬(x.lastSuccess = 0 ∧ x.lastError = 0) ∧ now - x.lastSuccess < thr := by
          intro hc
          obtain ⟨x, hx1, hx2⟩ := hc
          rcases List.mem_cons.mp hx1 with h | h
          · rw [h] at hx2
            exact hx2.1 hrec
          · exact hex ⟨x, h, hx2⟩
        rw [if_neg hex, if_neg hex']
        by_cases hko : delayed = true ∨ ∃ x ∈ rest, ¬(x.lastSuccess = 0 ∧ x.lastError = 0)
        · have hko' : delayed = true ∨ ∃ x ∈ r :: rest, ¬(x.lastSuccess = 0 ∧ x.lastError = 0) := by
            rcases hko with h | h
            · exact Or.inl h
            · obtain ⟨x, hx1, hx2⟩ := h
              exact Or.inr ⟨x, List.mem_cons_of_mem r hx1, hx2⟩
          rw [if_pos hko, if_pos hko']
        · have hko' :
              ¬ (delayed = true ∨ ∃ x ∈ r :: rest, ¬(x.lastSuccess = 0 ∧ x.lastError = 0)) := by
            intro hc
            rcases hc with h | h
            · exact hko (Or.inl h)
            · obtain ⟨x, hx1, hx2⟩ := h
              rcases List.mem_cons.mp hx1 with h' | h'
              · rw [h'] at hx2
                exact hx2 hrec
              · exact hko (Or.inr ⟨x, h', hx2⟩)
          rw [if_neg hko, if_neg hko']
    · by_cases hfresh : now - r.lastSuccess < thr
      · have hstep : healthLoop now thr (r :: rest) delayed = ok := by
          rw [healthLoop, if_neg hrec, if_pos hfresh]
        have hex' :
            ∃ x ∈ r :: rest, ¬(x.lastSuccess = 0 ∧ x.lastError = 0) ∧ now - x.lastSuccess < thr :=
          ⟨r, List.mem_cons_self r rest, hrec, hfresh⟩
        rw [hstep, if_pos hex']
      · have hstep : healthLoop now thr (r :: rest) delayed = healthLoop now thr rest true := by
          rw [healthLoop, if_neg hrec, if_neg hfresh]
        rw [hstep, ih]
        by_cases hex : ∃ x ∈ rest, ¬(x.lastSuccess = 0 ∧ x.lastError = 0) ∧ now - x.lastSuccess < thr
        · have hex' :
              ∃ x ∈ r :: rest, ¬(x.lastSuccess = 0 ∧ x.lastError = 0) ∧ now - x.lastSuccess < thr := by
            obtain ⟨x, hx1, hx2⟩ := hex
            exact ⟨x, List.mem_cons_of_mem r hx1, hx2⟩
          rw [if_pos hex, if_pos hex']
        · have hex' :
              ¬ ∃ x ∈ r :: rest, ¬(x.lastSuccess = 0 ∧ x.lastError = 0) ∧ now - x.lastSuccess < thr := by
            intro hc
            obtain ⟨x, hx1, hx2⟩ := hc
            rcases List.mem_cons.mp hx1 with h | h
            · rw [h] at hx2
              exact hfresh hx2.2
            · exact hex ⟨x, h, hx2⟩
          rw [if_neg hex, if_neg hex']
          have hko' : (true : Bool) = true ∨ ∃ x ∈ rest, ¬(x.lastSuccess = 0 ∧ x.lastError = 0) :=
            Or.inl rfl
          have hko'' : delayed = true ∨ ∃ x ∈ r :: rest, ¬(x.lastSuccess = 0 ∧ x.lastError = 0) :=
            Or.inr ⟨r, List.mem_cons_self r rest, hrec⟩
          rw [if_pos hko', if_pos hko'']

/-- Counterexample to claim C3 as stated: with an empty set of
registered reactors, no reactor has any recorded execution (vacuously),
so the claim requires a HEALTHY answer; the handler instead answers
`ko` (HTTP 503), because of the explicit `len(s.reactors) == 0` check. -/
theorem C3_counterexample :
    (∀ r ∈ ([] : List ReactorHealth), r.lastSuccess = 0 ∧ r.lastError = 0) ∧
    health 100 86400 [] = ko ∧ health 100 86400 [] ≠ ok := by
  refine ⟨by simp, rfl, by decide⟩

/-- Claim C3, amended: with no registered reactors the health check
responds UNHEALTHY (HTTP 503 with the `reactor not healthy` body);
otherwise it responds HEALTHY (HTTP 200 with the `ok` body) if and only
if no reactor has any recorded execution, or some reactor with a
recorded execution has `now - LastSuccess < threshold`; in every other
case it responds UNHEALTHY. -/
theorem C3_health_characterization (now thr : Int) (rs : List ReactorHealth) :
    health now thr rs =
      (if rs ≠ [] ∧
          ((∀ r ∈ rs, r.lastSuccess = 0 ∧ r.lastError = 0) ∨
           ∃ r ∈ rs, ¬(r.lastSuccess = 0 ∧ r.lastError = 0) ∧ now - r.lastSuccess < thr)
       then ok else ko) := by
  by_cases hnil : rs = []
  · subst hnil
    rw [show health now thr [] = ko from rfl]
    rw [if_neg (fun hc => hc.1 rfl)]
  · have hlen : ¬ (rs.length = 0) := fun hc => hnil (List.length_eq_zero.mp hc)
    unfold health
    rw [if_neg hlen, healthLoop_spec]
    by_cases hex : ∃ r ∈ rs, ¬(r.lastSuccess = 0 ∧ r.lastError = 0) ∧ now - r.lastSuccess < thr
    · rw [if_pos hex, if_pos ⟨hnil, Or.inr hex⟩]
    · rw [if_neg hex]
      by_cases hrec : ∃ r ∈ rs, ¬(r.lastSuccess = 0 ∧ r.lastError = 0)
      · rw [if_pos (Or.inr hrec), if_neg (by
          intro hc
          rcases hc.2 with hall | hfr
          · obtain ⟨x, hx, hx2⟩ := hrec
            exact hx2 (hall x hx)
          · exact hex hfr)]
      · rw [if_neg (by
          intro hc
          rcases hc with h | h
          · simp at h
          · exact hrec h)]
        rw [if_pos ⟨hnil, Or.inl (by
          intro x hx
          by_contra hcx
          exact hrec ⟨x, hx, hcx⟩)⟩]

end http

namespace lib

/-- Claim C4: a `Write(b)` before `Start` stages `b` in the pre-init
buffer, emits no record, and returns the staging buffer's result
`(len(b), nil)` — `bytes.Buffer.Write` never returns an error; a
`Write(b)` after `Start` returns `(len(b), nil)`. -/
theorem C4_write_return (rl : ReactorLog) (b : List Nat) :
    (rl.initialized = false →
        rl.Write b = ({ rl with buff := rl.buff ++ b }, [], (b.length, none))) ∧
    (rl.initialized = true →
        (rl.Write b).2.2 = (b.length, (none : Option String))) := by
  constructor
  · intro h
    unfold ReactorLog.Write
    rw [h]
    simp
  · intro h
    unfold ReactorLog.Write
    rw [h]
    simp

/-- Witness for C4 at concrete inputs: a pristine log stages the bytes,
and an initialized log returns the length with no error. -/
theorem C4_witness :
    (ReactorLog.zero.initialized = false →
        ReactorLog.zero.Write [65, 66] =
          ({ ReactorLog.zero with buff := ReactorLog.zero.buff ++ [65, 66] }, [],
            ([65, 66].length, none))) ∧
    (ReactorLog.zero.initialized = true →
        (ReactorLog.zero.Write [65, 66]).2.2 = ([65, 66].length, (none : Option String))) :=
  C4_write_return ReactorLog.zero [65, 66]

/-- Claim C6 (a bug in the code): releasing a `ReactorLog` back to the
pool via `reset` at the end of `Done` does not clear every field — the
`initialized` flag survives.  Concretely, after a full
`NewReactorLog / Start / Done` cycle the object put back in the pool
still has `initialized = true` (and `reset` alone preserves whatever
`initialized` was), so a later execution reusing the pooled object
skips the pre-`Start` staging path. -/
theorem C6_reset_keeps_initialized :
    (((NewReactorLog ReactorLog.zero true "host" 1 1 0).Start 7 [99]).1.Done none 3).1.initialized
        = true ∧
    (((NewReactorLog ReactorLog.zero true "host" 1 1 0).Start 7 [99]).1.Done none 3).1.Line = 0 ∧
    (ReactorLog.reset { ReactorLog.zero with initialized := true }).initialized = true := by
  refine ⟨rfl, rfl, rfl⟩

end lib

namespace lib

/-- Scanning newline-free bytes only grows the accumulator and emits
nothing. -/
lemma handleWriteBytes_no_newline (rl : ReactorLog) (b : List Nat) (h : ∀ c ∈ b, c ≠ 10) :
    rl.handleWriteBytes b = ({ rl with w := rl.w ++ b }, []) := by
  induction b generalizing rl with
  | nil => simp [ReactorLog.handleWriteBytes]
  | cons c rest ih =>
    have hc : ¬ (c = 10) := h c (List.mem_cons_self c rest)
    rw [ReactorLog.handleWriteBytes, if_neg hc]
    rw [ih _ (fun x hx => h x (List.mem_cons_of_mem c hx))]
    simp

/-- Before initialization, a sequence of `Write` calls stages all the
bytes in `buff`, in order, and emits no record. -/
lemma applyWrites_preinit (bs : List (List Nat)) (rl : ReactorLog)
    (h : rl.initialized = false) :
    applyWrites rl bs = ({ rl with buff := rl.buff ++ bs.flatten }, []) := by
  induction bs generalizing rl with
  | nil => simp [applyWrites]
  | cons b rest ih =>
    rw [applyWrites]
    have hw : rl.Write b = ({ rl with buff := rl.buff ++ b }, [], (b.length, none)) := by
      unfold ReactorLog.Write
      rw [h]
      simp
    rw [hw]
    dsimp only
    rw [ih { rl with buff := rl.buff ++ b } h]
    simp

/-- A `Done` on a never-initialized log whose staged bytes are
newline-free emits exactly one record: `Status = "END"` and `Output`
the accumulator followed by the staged bytes. -/
lemma Done_uninit_records (rl : ReactorLog) (err : Option String) (t1 : Int)
    (h0 : rl.initialized = false) (hs : rl.logStream = true)
    (hb : ∀ c ∈ rl.buff, c ≠ 10) :
    ∃ r : LogRecord, (rl.Done err t1).2 = [r] ∧ r.Status = "END" ∧
      r.Output = rl.w ++ rl.buff := by
  unfold ReactorLog.Done
  rw [h0]
  rw [show (!false) = true from rfl]
  rw [if_pos rfl]
  rw [handleWriteBytes_no_newline rl rl.buff hb]
  cases err with
  | none =>
    exact ⟨{ Host := rl.Host, Label := rl.Label, Pid := rl.Pid, RID := rl.RID, TID := rl.TID
             Line := rl.Line, Output := rl.w ++ rl.buff, Status := "END", Error := rl.Error
             Elapse := t1 - rl.st, Timestamp := rl.Timestamp },
           by simp [ReactorLog.printJSON, hs], rfl, rfl⟩
  | some e =>
    exact ⟨{ Host := rl.Host, Label := rl.Label, Pid := rl.Pid, RID := rl.RID, TID := rl.TID
             Line := rl.Line, Output := rl.w ++ rl.buff, Status := "END", Error := e
             Elapse := t1 - rl.st, Timestamp := rl.Timestamp },
           by simp [ReactorLog.printJSON, hs], rfl, rfl⟩

/-- Counterexample to claim C5 as stated: when the buffered bytes
contain a newline, the never-started execution emits more than one
record — flushing the staged bytes in `Done` goes through
`handleWriteBytes`, which emits one record per newline before the final
`END` record.  Writing `a\nb` and calling `Done` yields two records. -/
theorem C5_counterexample :
    (execRecords "host" 1 1 0 [[97, 10, 98]] none [] none 5).length = 2 := by
  rfl

/-- Claim C5, amended: on a log that is never started, any sequence of
`Write` calls whose payloads contain no newline byte, followed by a
single `Done`, emits exactly one record; that record has
`Status = "END"` and its `Output` is exactly the buffered written
bytes.  (Payloads containing newlines additionally emit one record per
newline during the `Done` flush.) -/
theorem C5_no_start_one_end_record (hostname : String) (rid tid : Nat) (t0 t1 : Int)
    (bs : List (List Nat)) (err : Option String)
    (h : ∀ b ∈ bs, ∀ c ∈ b, c ≠ 10) :
    ∃ r : LogRecord,
      execRecords hostname rid tid t0 bs none [] err t1 = [r] ∧
      r.Status = "END" ∧ r.Output = bs.flatten := by
  unfold execRecords
  dsimp only
  have hinit : (NewReactorLog ReactorLog.zero true hostname rid tid t0).initialized = false := rfl
  rw [applyWrites_preinit bs _ hinit]
  have hflat : ∀ c ∈ ({ NewReactorLog ReactorLog.zero true hostname rid tid t0 with
      buff := (NewReactorLog ReactorLog.zero true hostname rid tid t0).buff ++ bs.flatten } :
        ReactorLog).buff, c ≠ 10 := by
    intro c hc
    have hb0 : (NewReactorLog ReactorLog.zero true hostname rid tid t0).buff = [] := rfl
    have hc2 : c ∈ bs.flatten := by
      simp only [hb0, List.nil_append] at hc
      simpa using hc
    obtain ⟨l, hl, hcl⟩ := List.mem_flatten.mp hc2
    exact h l hl c hcl
  obtain ⟨r, hr1, hr2, hr3⟩ := Done_uninit_records _ err t1 rfl rfl hflat
  refine ⟨r, ?_, hr2, ?_⟩
  · simpa using hr1
  · rw [hr3]
    simp [NewReactorLog, ReactorLog.zero]

/-- Witness for C5's amended theorem at a concrete input. -/
theorem C5_witness :
    ∃ r : LogRecord,
      execRecords "host" 1 1 0 [[97], [98]] none [] none 5 = [r] ∧
      r.Status = "END" ∧ r.Output = [[97], [98]].flatten :=
  C5_no_start_one_end_record "host" 1 1 0 5 [[97], [98]] none (by decide)

end lib

namespace sqs

/-- Counterexample to claim C8 as stated: the body `\x7b"Message":123\x7d`
parses as JSON whose top-level `Message` field is a number, not a
string — yet the code replaces the body (the source only checks
`Exists("Message")`, not that the value is a string).  The body becomes
`123`, so the replacement is not restricted to string fields. -/
theorem C8_counterexample :
    hasTopLevelStringMessage ("\x7b\"Message\":123\x7d".toList) = false ∧
    unwrapBody ("\x7b\"Message\":123\x7d".toList) = "123".toList ∧
    unwrapBody ("\x7b\"Message\":123\x7d".toList) ≠ "\x7b\"Message\":123\x7d".toList := by
  refine ⟨?_, ?_, ?_⟩ <;> decide

/-- Claim C8, amended: the body seen by the reactors is replaced iff
the original body parses as JSON with a top-level `Message` field of
any type; in that case it becomes the field's JSON rendering with
escaped quotes unescaped and one pair of surrounding quotes stripped,
and in every other case the body is unchanged. -/
theorem C8_unwrap_characterization (b : List Char) :
    (hasTopLevelMessage b = false → unwrapBody b = b) ∧
    (∀ j v, ParseJSON b = some j → getKey j msgKey = some v →
        unwrapBody b = trimQuoteRight (trimQuoteLeft (replaceEscQuotes (renderJson v)))) := by
  constructor
  · intro h
    unfold unwrapBody
    unfold hasTopLevelMessage at h
    cases hp : ParseJSON b with
    | none => rfl
    | some j =>
      rw [hp] at h
      dsimp only at h ⊢
      cases hk : getKey j msgKey with
      | none => rfl
      | some v =>
        rw [hk] at h
        simp at h
  · intro j v hp hk
    unfold unwrapBody
    rw [hp]
    dsimp only
    rw [hk]

/-- Witness for C8's amended theorem: a body that is not JSON is left
unchanged. -/
theorem C8_witness :
    unwrapBody ("hello".toList) = "hello".toList :=
  (C8_unwrap_characterization ("hello".toList)).1 (by decide)

end sqs

namespace lib

/-- Appending two consecutive index ranges (step 1). -/
lemma range'_glue (s n m : Nat) :
    List.range' s n ++ List.range' (s + n) m = List.range' s (n + m) := by
  have h := List.range'_append s n m 1
  rw [one_mul] at h
  rw [h, Nat.add_comm]

/-- Trace of `handleWriteBytes` on a log bound to a stream: it emits
one record per newline byte, all carrying the current `Status`, with
consecutive `Line` values starting at the current line counter; the
resulting state has advanced `Line` accordingly and preserves `Status`,
`initialized`, the stream and `buff`. -/
lemma handleWriteBytes_spec (b : List Nat) (rl : ReactorLog) (hs : rl.logStream = true)
    (rl2 : ReactorLog) (r2 : List LogRecord) (heq : rl.handleWriteBytes b = (rl2, r2)) :
    ∃ k,
      r2.map (fun r => r.Status) = List.replicate k rl.Status ∧
      r2.map (fun r => r.Line) = List.range' rl.Line k ∧
      rl2.Line = rl.Line + k ∧
      rl2.Status = rl.Status ∧
      rl2.initialized = rl.initialized ∧
      rl2.logStream = true ∧
      rl2.buff = rl.buff := by
  induction b generalizing rl rl2 r2 with
  | nil =>
    rw [ReactorLog.handleWriteBytes] at heq
    injection heq with e1 e2
    subst e1
    subst e2
    exact ⟨0, by simp, by simp, by simp, rfl, rfl, hs, rfl⟩
  | cons l rest ih =>
    by_cases hl : l = 10
    · subst hl
      rw [ReactorLog.handleWriteBytes, if_pos rfl] at heq
      have hpj : rl.printJSON = ({ rl with w := [], Output := [], Line := rl.Line + 1 },
          [{ Host := rl.Host, Label := rl.Label, Pid := rl.Pid, RID := rl.RID, TID := rl.TID
             Line := rl.Line, Output := rl.w, Status := rl.Status, Error := rl.Error
             Elapse := rl.Elapse, Timestamp := rl.Timestamp }]) := by
        unfold ReactorLog.printJSON
        simp [hs]
      rw [hpj] at heq
      dsimp only at heq
      rcases hrec : ReactorLog.handleWriteBytes
          { rl with w := [], Output := [], Line := rl.Line + 1 } rest with ⟨rl3, r3⟩
      rw [hrec] at heq
      dsimp only at heq
      injection heq with e1 e2
      subst e1
      subst e2
      obtain ⟨k, ih1, ih2, ih3, ih4, ih5, ih6, ih7⟩ :=
        ih { rl with w := [], Output := [], Line := rl.Line + 1 } hs rl3 r3 hrec
      refine ⟨k + 1, ?_, ?_, ?_, ?_, ?_, ih6, ?_⟩
      · rw [List.map_append, ih1]
        simp [List.replicate_succ]
      · rw [List.map_append, ih2, List.range'_succ]
        simp
      · rw [ih3]
        dsimp only
        omega
      · rw [ih4]
      · rw [ih5]
      · rw [ih7]
    · rw [ReactorLog.handleWriteBytes, if_neg hl] at heq
      obtain ⟨k, ih1, ih2, ih3, ih4, ih5, ih6, ih7⟩ :=
        ih { rl with w := rl.w ++ [l] } hs rl2 r2 heq
      exact ⟨k, ih1, ih2, ih3, ih4, ih5, ih6, ih7⟩

end lib

namespace lib

/-- Trace of a post-`Start` `Write`: all emitted records carry the
current `Status` with consecutive `Line` values from the current line
counter; `Status`, initialization and the stream are preserved and the
staging buffer ends empty. -/
lemma Write_postinit_spec (rl : ReactorLog) (b : List Nat) (hinit : rl.initialized = true)
    (hs : rl.logStream = true) (rl2 : ReactorLog) (r2 : List LogRecord)
    (res : Nat × Option String) (heq : rl.Write b = (rl2, r2, res)) :
    ∃ k,
      r2.map (fun r => r.Status) = List.replicate k rl.Status ∧
      r2.map (fun r => r.Line) = List.range' rl.Line k ∧
      rl2.Line = rl.Line + k ∧
      rl2.Status = rl.Status ∧
      rl2.initialized = true ∧
      rl2.logStream = true ∧
      rl2.buff = [] := by
  unfold ReactorLog.Write at heq
  rw [hinit] at heq
  rw [if_neg (by simp)] at heq
  by_cases hbuf : rl.buff.length > 0
  · rw [if_pos hbuf] at heq
    rcases h1 : rl.handleWriteBytes rl.buff with ⟨rla, ra⟩
    rw [h1] at heq
    dsimp only at heq
    rcases h2 : ReactorLog.handleWriteBytes { rla with buff := [] } b with ⟨rlb, rb⟩
    rw [h2] at heq
    dsimp only at heq
    injection heq with e1 e2
    injection e2 with e2a e2b
    subst e1
    subst e2a
    obtain ⟨k1, a1, a2, a3, a4, a5, a6, a7⟩ := handleWriteBytes_spec rl.buff rl hs rla ra h1
    obtain ⟨k2, b1, b2, b3, b4, b5, b6, b7⟩ :=
      handleWriteBytes_spec b { rla with buff := [] } a6 rlb rb h2
    refine ⟨k1 + k2, ?_, ?_, ?_, ?_, ?_, b6, ?_⟩
    · rw [List.map_append, a1, b1]
      dsimp only
      rw [a4]
      rw [← List.replicate_add]
    · rw [List.map_append, a2, b2]
      dsimp only
      rw [a3]
      exact range'_glue rl.Line k1 k2
    · rw [b3]
      dsimp only
      rw [a3]
      omega
    · rw [b4]
      dsimp only
      exact a4
    · rw [b5]
      dsimp only
      rw [a5]
      exact hinit
    · rw [b7]
  · rw [if_neg hbuf] at heq
    dsimp only at heq
    rcases h2 : rl.handleWriteBytes b with ⟨rlb, rb⟩
    rw [h2] at heq
    dsimp only at heq
    injection heq with e1 e2
    injection e2 with e2a e2b
    subst e1
    obtain ⟨k, b1, b2, b3, b4, b5, b6, b7⟩ := handleWriteBytes_spec b rl hs rlb rb h2
    have hbnil : rl.buff = [] := by
      simpa using List.length_eq_zero.mp (by omega)
    refine ⟨k, ?_, ?_, b3, b4, ?_, b6, ?_⟩
    · rw [← e2a]
      simpa using b1
    · rw [← e2a]
      simpa using b2
    · rw [b5, hinit]
    · rw [b7, hbnil]

end lib

namespace lib

/-- Trace of a sequence of post-`Start` writes: every record carries
the current `Status`, `Line` values are consecutive from the current
counter, and `Status`/initialization/stream are preserved. -/
lemma applyWrites_postinit_spec (bs : List (List Nat)) (rl : ReactorLog)
    (hinit : rl.initialized = true) (hs : rl.logStream = true)
    (rl2 : ReactorLog) (r2 : List LogRecord) (heq : applyWrites rl bs = (rl2, r2)) :
    ∃ k,
      r2.map (fun r => r.Status) = List.replicate k rl.Status ∧
      r2.map (fun r => r.Line) = List.range' rl.Line k ∧
      rl2.Line = rl.Line + k ∧
      rl2.Status = rl.Status ∧
      rl2.initialized = true ∧
      rl2.logStream = true := by
  induction bs generalizing rl rl2 r2 with
  | nil =>
    rw [applyWrites] at heq
    injection heq with e1 e2
    subst e1
    subst e2
    exact ⟨0, by simp, by simp, by simp, rfl, hinit, hs⟩
  | cons b rest ih =>
    rw [applyWrites] at heq
    rcases hw : rl.Write b with ⟨rla, ra, res⟩
    rw [hw] at heq
    dsimp only at heq
    rcases hrest : applyWrites rla rest with ⟨rlb, rb⟩
    rw [hrest] at heq
    dsimp only at heq
    injection heq with e1 e2
    subst e1
    subst e2
    obtain ⟨k1, a1, a2, a3, a4, a5, a6, a7⟩ :=
      Write_postinit_spec rl b hinit hs rla ra res hw
    obtain ⟨k2, c1, c2, c3, c4, c5, c6⟩ := ih rla a5 a6 rlb rb hrest
    refine ⟨k1 + k2, ?_, ?_, ?_, ?_, c5, c6⟩
    · rw [List.map_append, a1, c1, a4]
      rw [← List.replicate_add]
    · rw [List.map_append, a2, c2, a3]
      exact range'_glue rl.Line k1 k2
    · rw [c3, a3]
      omega
    · rw [c4, a4]

/-- Trace of `Start`: exactly one record is emitted, with status `CMD`
and the current line number; afterwards the log is initialized, in
status `RUN`, with the line counter advanced by one, and the staging
buffer untouched. -/
lemma Start_spec (rl : ReactorLog) (pid : Int) (cmd : List Nat) (hs : rl.logStream = true)
    (rl2 : ReactorLog) (r2 : List LogRecord) (heq : rl.Start pid cmd = (rl2, r2)) :
    r2.map (fun r => r.Status) = ["CMD"] ∧
    r2.map (fun r => r.Line) = [rl.Line] ∧
    rl2.Line = rl.Line + 1 ∧
    rl2.Status = "RUN" ∧
    rl2.initialized = true ∧
    rl2.logStream = true ∧
    rl2.buff = rl.buff := by
  unfold ReactorLog.Start ReactorLog.printJSON at heq
  simp only [hs, if_pos] at heq
  injection heq with e1 e2
  subst e1
  subst e2
  refine ⟨rfl, rfl, rfl, rfl, rfl, rfl, rfl⟩

/-- Trace of `Done`: flushing (when never initialized) emits one
record per newline in the staged buffer, then exactly one final record
with status `END` is emitted; `Line` values are consecutive from the
current counter.  When the log was initialized, no flush happens and
the `END` record is the only one. -/
lemma Done_records_spec (rl : ReactorLog) (err : Option String) (t1 : Int)
    (hs : rl.logStream = true) (rld : ReactorLog) (rd : List LogRecord)
    (heq : rl.Done err t1 = (rld, rd)) :
    ∃ k,
      rd.map (fun r => r.Line) = List.range' rl.Line (k + 1) ∧
      rd.map (fun r => r.Status) =
        List.replicate k rl.Status ++ ["END"] ∧
      rd.length = k + 1 ∧
      (rl.initialized = true → k = 0) := by
  unfold ReactorLog.Done at heq
  by_cases hinit : rl.initialized = true
  · rw [hinit] at heq
    rw [if_neg (by simp)] at heq
    dsimp only at heq
    cases err with
    | none =>
      unfold ReactorLog.printJSON at heq
      simp only [hs, if_pos] at heq
      injection heq with e1 e2
      subst e1
      subst e2
      refine ⟨0, by simp [List.range'_succ], by simp, by simp, fun _ => rfl⟩
    | some e =>
      unfold ReactorLog.printJSON at heq
      simp only [hs, if_pos] at heq
      injection heq with e1 e2
      subst e1
      subst e2
      refine ⟨0, by simp [List.range'_succ], by simp, by simp, fun _ => rfl⟩
  · have hinit' : rl.initialized = false := by
      cases hi : rl.initialized
      · rfl
      · exact absurd hi hinit
    rw [hinit'] at heq
    rw [if_pos (by simp)] at heq
    rcases h1 : rl.handleWriteBytes rl.buff with ⟨rla, ra⟩
    rw [h1] at heq
    dsimp only at heq
    obtain ⟨k, a1, a2, a3, a4, a5, a6, a7⟩ := handleWriteBytes_spec rl.buff rl hs rla ra h1
    cases err with
    | none =>
      unfold ReactorLog.printJSON at heq
      simp only [a6, if_pos] at heq
      injection heq with e1 e2
      subst e1
      subst e2
      refine ⟨k, ?_, ?_, ?_, ?_⟩
      · rw [List.map_append, a2]
        simp only [List.map_cons, List.map_nil]
        rw [a3, List.range'_1_concat]
      · rw [List.map_append, a1]
        simp only [List.map_cons, List.map_nil]
      · rw [List.length_append]
        have := congrArg List.length a1
        simp only [List.length_map, List.length_replicate] at this
        simp [this]
      · intro hc
        exact absurd hc hinit
    | some e =>
      unfold ReactorLog.printJSON at heq
      simp only [a6, if_pos] at heq
      injection heq with e1 e2
      subst e1
      subst e2
      refine ⟨k, ?_, ?_, ?_, ?_⟩
      · rw [List.map_append, a2]
        simp only [List.map_cons, List.map_nil]
        rw [a3, List.range'_1_concat]
      · rw [List.map_append, a1]
        simp only [List.map_cons, List.map_nil]
      · rw [List.length_append]
        have := congrArg List.length a1
        simp only [List.length_map, List.length_replicate] at this
        simp [this]
      · intro hc
        exact absurd hc hinit

end lib

namespace lib

/-- Claim C7: for a single execution against a pristine pooled object
(creation, optional `Start`, any writes, then `Done`), the emitted
records carry consecutive `Line` values `0, 1, 2, ...` (in particular
strictly increasing starting at 0); and if `Start` was called, the
status sequence is exactly one `CMD` record, then zero or more `RUN`
records, then exactly one final `END` record. -/
theorem C7_line_and_status_sequence (hostname : String) (rid tid : Nat) (t0 : Int)
    (preWrites : List (List Nat)) (startOpt : Option (Int × List Nat))
    (postWrites : List (List Nat)) (err : Option String) (t1 : Int)
    (recs : List LogRecord)
    (hrecs : execRecords hostname rid tid t0 preWrites startOpt postWrites err t1 = recs) :
    recs.map (fun r => r.Line) = List.range recs.length ∧
    (∀ pid cmd, startOpt = some (pid, cmd) →
      recs.map (fun r => r.Status) =
        "CMD" :: (List.replicate (recs.length - 2) "RUN" ++ ["END"])) := by
  cases startOpt with
  | none =>
    unfold execRecords at hrecs
    dsimp only at hrecs
    rw [applyWrites_preinit preWrites _ rfl] at hrecs
    dsimp only at hrecs
    rcases hd : ReactorLog.Done
        { NewReactorLog ReactorLog.zero true hostname rid tid t0 with
          buff := (NewReactorLog ReactorLog.zero true hostname rid tid t0).buff
            ++ preWrites.flatten } err t1 with ⟨rld, rd⟩
    rw [hd] at hrecs
    dsimp only at hrecs
    obtain ⟨k, d1, d2, d3, d4⟩ := Done_records_spec _ err t1 rfl rld rd hd
    rw [List.nil_append] at hrecs
    subst hrecs
    refine ⟨?_, ?_⟩
    · have hd1 : rd.map (fun r => r.Line) = List.range' 0 (k + 1) := by
        rw [d1]
        rfl
      rw [hd1, d3, List.range_eq_range']
    · intro pid cmd h
      exact absurd h (by simp)
  | some pc =>
    obtain ⟨pid, cmd⟩ := pc
    unfold execRecords at hrecs
    dsimp only at hrecs
    rw [applyWrites_preinit preWrites _ rfl] at hrecs
    dsimp only at hrecs
    rcases hst : ReactorLog.Start
        { NewReactorLog ReactorLog.zero true hostname rid tid t0 with
          buff := (NewReactorLog ReactorLog.zero true hostname rid tid t0).buff
            ++ preWrites.flatten } pid cmd with ⟨rl2, rs2⟩
    rw [hst] at hrecs
    dsimp only at hrecs
    rcases haw : applyWrites rl2 postWrites with ⟨rl3, rs3⟩
    rw [haw] at hrecs
    dsimp only at hrecs
    rcases hdn : ReactorLog.Done rl3 err t1 with ⟨rl4, rs4⟩
    rw [hdn] at hrecs
    dsimp only at hrecs
    obtain ⟨s1, s2, s3, s4, s5, s6, s7⟩ := Start_spec _ pid cmd rfl rl2 rs2 hst
    obtain ⟨k2, w1, w2, w3, w4, w5, w6⟩ :=
      applyWrites_postinit_spec postWrites rl2 s5 s6 rl3 rs3 haw
    obtain ⟨k3, d1, d2, d3, d4⟩ := Done_records_spec rl3 err t1 w6 rl4 rs4 hdn
    have hk3 : k3 = 0 := d4 w5
    subst hk3
    rw [List.nil_append] at hrecs
    subst hrecs
    have hs2' : rs2.map (fun r => r.Line) = [0] := by
      rw [s2]
      rfl
    have hL2 : rl2.Line = 1 := by
      rw [s3]
      rfl
    have hL3 : rl3.Line = k2 + 1 := by
      rw [w3, hL2]
      omega
    have hlen2 : rs2.length = 1 := by
      have h := congrArg List.length s2
      simpa using h
    have hlen3 : rs3.length = k2 := by
      have h := congrArg List.length w2
      simpa using h
    have hlen4 : rs4.length = 1 := by
      simpa using d3
    have hlenrecs : (rs2 ++ rs3 ++ rs4).length = k2 + 2 := by
      simp only [List.length_append, hlen2, hlen3, hlen4]
      omega
    refine ⟨?_, ?_⟩
    · rw [List.map_append, List.map_append, hs2', w2, d1, hL2, hL3, hlenrecs,
        List.range_eq_range']
      simp only [Nat.zero_add]
      have e1 : List.range' 0 (k2 + 1) = [0] ++ List.range' 1 k2 := by
        rw [List.range'_succ]
        simp
      rw [← e1]
      have e2 := range'_glue 0 (k2 + 1) 1
      rw [Nat.zero_add] at e2
      rw [e2]
    · intro pid' cmd' h
      rw [List.map_append, List.map_append, s1, w1, s4, d2, hlenrecs]
      simp

end lib

namespace lib

/-- Witness for C7 at a concrete execution with a `Start` call. -/
theorem C7_witness :
    ((execRecords "h" 1 2 0 [[97]] (some (7, [99])) [[10]] none 9).map (fun r => r.Line)
        = List.range (execRecords "h" 1 2 0 [[97]] (some (7, [99])) [[10]] none 9).length) ∧
    (∀ pid cmd, (some ((7 : Int), [99])) = some (pid, cmd) →
      (execRecords "h" 1 2 0 [[97]] (some (7, [99])) [[10]] none 9).map (fun r => r.Status)
        = "CMD" ::
            (List.replicate
              ((execRecords "h" 1 2 0 [[97]] (some (7, [99])) [[10]] none 9).length - 2)
              "RUN" ++ ["END"])) :=
  C7_line_and_status_sequence "h" 1 2 0 [[97]] (some (7, [99])) [[10]] none 9 _ rfl

end lib
